import Mathlib

/-!
Shallow embedding of the HCS coordinate algebra (src/hcs.hpp) and the sparse
Field container (src/field.hpp).

Conventions of the embedding:
* `coord_t` (64-bit unsigned) is modelled as `Nat`, with `% 2 ^ 64` inserted
  exactly where C++ unsigned arithmetic can wrap (additions, subtractions and
  left shifts); `&&&`, `|||`, `^^^` on values below `2 ^ 64` agree with the
  machine operations, and one's complement `~x` is `mask64 ^^^ x`.
* `__builtin_clzll` is modelled by `clz`, with `clz 0 = 64` (the C++ call is
  undefined for 0; no claim depends on that corner).
* `double` is modelled by `ℚ`: every floating-point constant appearing in the
  source (0.25, 0.5, 0.75, 1) is a dyadic rational, so control flow and the
  claims about coefficient maps are unaffected by rounding.
* `std::vector` reads are modelled with `List.getD _ _ 0`; an out-of-bounds
  read (undefined behaviour in C++) yields the default 0.  All inputs used by
  the theorems below keep every access within bounds, except where a theorem
  explicitly documents otherwise.
* exceptions (`throw range_error`) and `exit(1)` are modelled by `Except.error`
  carrying a `FErr` tag; stateful member functions return the final object
  state alongside the result, mirroring the mutation of `*this`.
* unbounded loops and recursion (the `do/while` of the iterator, `refineTo`'s
  descent, the recursion of `get`/`getCoeffs`/`treefill_up`) take an explicit
  fuel argument; exhaustion is the distinct tag `FErr.noFuel` (or `none`), so
  it can never be confused with an error the source itself raises.
* user boundary callbacks are modelled as optional constants (`Option ℚ`): a
  registered callback returns its constant, an unregistered slot (`nullptr`)
  contributes nothing, exactly as in the source.  No claim depends on the
  value a callback computes.
-/

namespace HCS

/-- Bit mask of a full 64-bit word, used to model one's complement `~x` as
`mask64 ^^^ x`. -/
def mask64 : Nat := 2 ^ 64 - 1

/-- Base-2 logarithm with explicit fuel; for `n < 2 ^ fuel` this equals
`Nat.log2 n`, and with fuel 64 it covers every 64-bit value.  (A structural
recursion is used so that proofs can evaluate it.) -/
def log2fuel : Nat → Nat → Nat
  | 0, _ => 0
  | fuel + 1, n => if 2 ≤ n then log2fuel fuel (n / 2) + 1 else 0

/-- Model of `__count_leading_zeros` on a 64-bit value (`__builtin_clzll`). -/
def clz (c : Nat) : Nat := if c = 0 then 64 else 63 - log2fuel 64 c

/-- `part_mask = (1U << dimensions) - 1` from the `HCS` constructor. -/
def partMask (D : Nat) : Nat := 2 ^ D - 1

/-- `parts = 1U << dimensions` from the `HCS` constructor. -/
def parts (D : Nat) : Nat := 2 ^ D

/-- `max_level = (HCS_COORD_BITS - 2 - dimensions) / dimensions` from the
`HCS` constructor (`HCS_COORD_BITS` is 64). -/
def maxLevel (D : Nat) : Nat := (64 - 2 - D) / D

/-- `single = ~(1U << (d / 2)) & part_mask` from the constructor loop: the
bits of one level group with the bit of the given axis cleared. -/
def singleMask (D axis : Nat) : Nat := partMask D ^^^ (1 <<< axis)

/-- `successor_mask[2*axis]` as built by the constructor loop: `single`
or-ed over level groups `0 .. max_level - 1`. -/
def evenMask (D axis : Nat) : Nat :=
  (List.range (maxLevel D)).foldl (fun acc l => acc ||| (singleMask D axis <<< (D * l))) 0

/-- `successor_mask[d]`: the constructor sets the even entry from
`evenMask` and the odd entry to its complement. -/
def successorMask (D d : Nat) : Nat :=
  if d % 2 = 0 then evenMask D (d / 2) else mask64 ^^^ evenMask D (d / 2)

/-- `HCS::IsBoundary`: test for the most-significant bit. -/
def IsBoundary (c : Nat) : Bool := c.testBit 63

/-- `HCS::GetBoundaryDirection`: `(coord << 1) >> (HCS_COORD_BITS - dimensions)`. -/
def GetBoundaryDirection (D c : Nat) : Nat := ((c <<< 1) % 2 ^ 64) >>> (64 - D)

/-- `HCS::removeBoundary`: `(coord << (dimensions + 1)) >> (dimensions + 1)`. -/
def removeBoundary (D c : Nat) : Nat := ((c <<< (D + 1)) % 2 ^ 64) >>> (D + 1)

/-- The overflow-arithmetic part of `HCS::getNeighbor` (the value `result`
holds before the boundary check): for a negative direction
`result = (((coord & s_mask) - 1) & s_mask) | (~s_mask & coord)`, for a
positive one `result = (((coord | s_mask) + 1) & ~s_mask) | (s_mask & coord)`,
on 64-bit wrapping arithmetic. -/
def neighborArith (D c d : Nat) : Nat :=
  let s := successorMask D d
  if d % 2 = 1 then
    ((((c &&& s) + mask64) % 2 ^ 64) &&& s) ||| ((mask64 ^^^ s) &&& c)
  else
    ((((c ||| s) + 1) % 2 ^ 64) &&& (mask64 ^^^ s)) ||| (s &&& c)

/-- `HCS::getNeighbor`, the successor-formula neighbor: the arithmetic
result if the leading-zero count is unchanged, otherwise the boundary
marking.  The boundary branch reproduces the source literally, including the
shift `HCS_COORD_BITS - 2` applied to `direction`. -/
def getNeighbor (D c d : Nat) : Nat :=
  if clz c = clz (neighborArith D c d) then neighborArith D c d
  else c ||| (1 <<< 63) ||| ((d <<< 62) % 2 ^ 64)

/-- `HCS::GetLevelBitPosition = HCS_COORD_BITS - 1 - clz(coord)`; for input 0
the C++ unsigned arithmetic wraps and the `level_t` (uint16) result is 65535,
reproduced literally here. -/
def GetLevelBitPosition (c : Nat) : Nat := if c = 0 then 65535 else log2fuel 64 c

/-- `HCS::GetLevel = GetLevelBitPosition(coord) / dimensions`. -/
def GetLevel (D c : Nat) : Nat := GetLevelBitPosition c / D

/-- `HCS::ReduceLevel`: identity on boundary coords and `coord <= 1`,
otherwise shift right by `dimensions`. -/
def ReduceLevel (D c : Nat) : Nat := if IsBoundary c || c ≤ 1 then c else c >>> D

/-- `HCS::IncreaseLevel`: identity on boundary coords, otherwise
`(coord << dimensions) + new_level_coord`. -/
def IncreaseLevel (D c sub : Nat) : Nat :=
  if IsBoundary c then c else ((c <<< D) + sub) % 2 ^ 64

/-- `HCS::extract`: the single-level sub-coordinate at level position `lvl`. -/
def extract (D c lvl : Nat) : Nat := (c >>> (D * lvl)) &&& partMask D

/-- `HCS::CreateMinLevel = (coord_t)1U << (level * dimensions)`. -/
def CreateMinLevel (D lvl : Nat) : Nat := (1 <<< (lvl * D)) % 2 ^ 64

/-- `HCS::CreateMaxLevel = ((coord_t)1U << (level * dimensions + 1)) - 1`. -/
def CreateMaxLevel (D lvl : Nat) : Nat := ((1 <<< (lvl * D + 1)) % 2 ^ 64) - 1

end HCS

/-- Error tags for the exceptional exits of the Field member functions:
`range_error` throws, the `exit(1)` of the `getCoeffs` recursion guard, and
fuel exhaustion of the embedding (which never corresponds to a source exit). -/
inductive FErr where
  | notExist | notEmpty | recLimit | iterModes | noFuel
deriving DecidableEq

/-- State of a `Field<double, H2>` object: the members that the claims speak
about.  Boundary callbacks are modelled as optional constants; `symbol` and
`bracket_behavior` play no role in any claim and are omitted. -/
structure FieldState where
  data : List ℚ
  tree : List Nat
  boundary : List (Option ℚ)
  intermediate : ℚ
  coeff_up_count : Nat
  coeff_down_count : Nat
deriving DecidableEq

namespace Field

open HCS

/-- `Field::exists`, literally as in the source:
`if (hcs.IsBoundary(coord) || tree.size() >= coord) return false;
 return tree[coord] >= coord;`.
Note that the second disjunct compares `tree.size() >= coord` (not
`coord >= tree.size()`), and that consequently the final line only runs when
`coord` is strictly beyond the end of `tree` (an out-of-bounds read in C++,
modelled as reading 0). -/
def exists' (s : FieldState) (c : Nat) : Bool :=
  if IsBoundary c || decide (s.tree.length ≥ c) then false
  else decide (s.tree.getD c 0 ≥ c)

/-- The spec's wording of `exists(c)` (section 4.B): false if `c` is a
boundary coord or `c ≥ size(tree)`, else the truth of `tree[c] ≥ c`.  Kept
separate from `Field.exists'` so the two can be compared. -/
def existsSpec (s : FieldState) (c : Nat) : Bool :=
  if IsBoundary c || decide (c ≥ s.tree.length) then false
  else decide (s.tree.getD c 0 ≥ c)

/-- The raw top-level test `tree[coord] == coord`, used by the source at call
sites that have already checked existence. -/
def isTopRaw (s : FieldState) (c : Nat) : Bool := decide (s.tree.getD c 0 = c)

/-- `Field::isTop`: throws `range_error` when the coord does not exist,
otherwise returns `tree[coord] == coord`. -/
def isTop (s : FieldState) (c : Nat) : Except FErr Bool :=
  if exists' s c = false then Except.error FErr.notExist
  else Except.ok (isTopRaw s c)

/-- `Field::clear`: `data` and `tree` are cleared and resized to 2 zero
entries.  The final statement of the source, `tree[1] == 1;`, is a comparison
expression whose value is discarded, so it leaves `tree[1]` at 0; the
embedding reproduces that behaviour. -/
def clear (s : FieldState) : FieldState :=
  { s with data := [0, 0], tree := [0, 0] }

/-- A fresh `Field` as built by the constructor: zero counters, no boundary
callbacks, then `clear()`. -/
def emptyField : FieldState :=
  clear { data := [], tree := [], boundary := List.replicate 64 none,
          intermediate := 0, coeff_up_count := 0, coeff_down_count := 0 }

/-- `std::vector::resize(n, v)`. -/
def resizeList {α : Type} (l : List α) (n : Nat) (v : α) : List α :=
  if n ≤ l.length then l.take n else l ++ List.replicate (n - l.length) v

/-- `Field::createEntireLevel`: requires an empty field, resizes both arrays
to `CreateMaxLevel(level) + 2`, then fills `tree` per level from `level` down
to 1 (the loop `for (level_t l = level; l > 0; l--)` never touches level 0,
i.e. index 1). -/
def createEntireLevel (D lvl : Nat) (s : FieldState) : Except FErr FieldState :=
  if s.data.length > 2 then Except.error FErr.notEmpty
  else
    let level_end := CreateMaxLevel D lvl + 2
    let data := resizeList s.data level_end 0
    let tree0 := resizeList s.tree level_end 0
    let tree := (List.range lvl).foldl (fun t li =>
      let l := lvl - li
      let lo := CreateMinLevel D l
      let hi := CreateMaxLevel D l
      (List.range (hi + 1 - lo)).foldl (fun t2 k =>
        let c := lo + k
        t2.set c (if l = lvl then c else t2.getD (IncreaseLevel D c 0) 0)) t) tree0
    Except.ok { s with data := data, tree := tree }

/-- Increment of the `coeff_up_count` statistics member. -/
def bumpUp (s : FieldState) : FieldState :=
  { s with coeff_up_count := s.coeff_up_count + 1 }

/-- Increment of the `coeff_down_count` statistics member. -/
def bumpDown (s : FieldState) : FieldState :=
  { s with coeff_down_count := s.coeff_down_count + 1 }

/-- The coefficient map `coeff_map_t = map<coord_t, data_t>` of the source,
as an association list. -/
def CoeffMap : Type := List (Nat × ℚ)

/-- `coeffs[k] += w` on a `std::map` (default-constructing absent entries). -/
def addCoeff : List (Nat × ℚ) → Nat → ℚ → List (Nat × ℚ)
  | [], k, w => [(k, w)]
  | (k', w') :: rest, k, w =>
    if k = k' then (k', w' + w) :: rest else (k', w') :: addCoeff rest k w

/-- `std::map::insert(first, last)`: inserts only the keys that are not
already present (this is the semantics used by the non-top branch of
`getCoeffs`). -/
def insertNew (m add : List (Nat × ℚ)) : List (Nat × ℚ) :=
  add.foldl (fun mm kv => if mm.any (fun p => p.1 = kv.1) then mm else mm ++ [kv]) m

/-- The `boundary_quench[j]` flags of `get`/`getCoeffs`: whether the axis-`j`
neighbor of `origin` on the side selected by `high_part` is a boundary. -/
def quenchAt (D high origin j : Nat) : Bool :=
  IsBoundary (getNeighbor D origin (2 * j + (if (high >>> j) % 2 = 1 then 0 else 1)))

/-- The interpolation weight of corner `i` (loop over axes `j`):
0.5 under boundary quench, else 0.25 for a far bit and 0.75 for a near bit. -/
def cornerWeight (D high origin i : Nat) : ℚ :=
  (List.range D).foldl (fun w j =>
    w * (if quenchAt D high origin j then (1 : ℚ) / 2
         else if (i >>> j) % 2 = 1 then (1 : ℚ) / 4 else (3 : ℚ) / 4)) 1

/-- The corner walk of `get`/`getCoeffs`: starting from `origin`, step once
along every axis whose bit is set in `i`, in the direction given by
`high_part`; a step that hits a boundary is recorded and not taken. -/
def cornerWalk (D high origin i : Nat) : Nat × List Nat :=
  (List.range D).foldl (fun acc j =>
    if (i >>> j) % 2 = 1 then
      let nb := getNeighbor D acc.1 (2 * j + (if (high >>> j) % 2 = 1 then 0 else 1))
      if IsBoundary nb then (acc.1, acc.2 ++ [nb]) else (nb, acc.2)
    else acc) (origin, [])

/-- One corner of the non-existent branch of `getCoeffs`; `go` is the
recursive call with `recursion + 1`. -/
def coeffCornerStep (D : Nat) (unt : Bool) (high origin : Nat)
    (go : FieldState → Nat → Except FErr (List (Nat × ℚ)) × FieldState) :
    Except FErr (List (Nat × ℚ)) × FieldState → Nat →
    Except FErr (List (Nat × ℚ)) × FieldState
  | (Except.error e, s), _ => (Except.error e, s)
  | (Except.ok m, s), i =>
    let w := cornerWeight D high origin i
    let wk := cornerWalk D high origin i
    let current := wk.1
    let bc := wk.2
    if bc ≠ [] then
      (Except.ok (bc.foldl (fun mm b => addCoeff mm b (w / (bc.length : ℚ))) m), s)
    else
      let ex := exists' s current
      if !ex || (ex && !isTopRaw s current && !unt) then
        match go (bumpDown s) current with
        | (Except.error e, s') => (Except.error e, s')
        | (Except.ok part, s') =>
          (Except.ok (part.foldl (fun mm kv => addCoeff mm kv.1 (kv.2 * w)) m), s')
      else (Except.ok (addCoeff m current w), s)

/-- One child of the existing-but-not-top branch of `getCoeffs`: recurse on
`IncreaseLevel(c, dir)`, scale the partial map by `1 / parts`, and
`map::insert` it (no overwrite of existing keys). -/
def coeffChildStep (D : Nat) (c : Nat)
    (go : FieldState → Nat → Except FErr (List (Nat × ℚ)) × FieldState) :
    Except FErr (List (Nat × ℚ)) × FieldState → Nat →
    Except FErr (List (Nat × ℚ)) × FieldState
  | (Except.error e, s), _ => (Except.error e, s)
  | (Except.ok m, s), dir =>
    match go (bumpUp s) (IncreaseLevel D c dir) with
    | (Except.error e, s') => (Except.error e, s')
    | (Except.ok part, s') =>
      (Except.ok (insertNew m (part.map (fun kv => (kv.1, kv.2 / (parts D : ℚ))))), s')

/-- `Field::getCoeffs` with explicit fuel.  The source's recursion guard
(`recursion > max_level` followed by `exit(1)`) is the error `FErr.recLimit`;
fuel exhaustion of the embedding is the separate `FErr.noFuel`. -/
def getCoeffsGo (D : Nat) : Nat → FieldState → Nat → Bool → Nat →
    Except FErr (List (Nat × ℚ)) × FieldState
  | 0, s, _, _, _ => (Except.error FErr.noFuel, s)
  | fuel + 1, s, c, unt, recursion =>
    if IsBoundary c then (Except.ok [(c, 1)], s)
    else if recursion > maxLevel D then (Except.error FErr.recLimit, s)
    else if exists' s c then
      if isTopRaw s c || unt then (Except.ok [(c, 1)], s)
      else
        (List.range (parts D)).foldl
          (coeffChildStep D c (fun s' c' => getCoeffsGo D fuel s' c' unt (recursion + 1)))
          (Except.ok [], s)
    else
      (List.range (parts D)).foldl
        (coeffCornerStep D unt (extract D c 0) (ReduceLevel D c)
          (fun s' c' => getCoeffsGo D fuel s' c' unt (recursion + 1)))
        (Except.ok [], s)

/-- `getCoeffs` as called externally: fresh map, `recursion = 0`. -/
def getCoeffs (D fuel : Nat) (s : FieldState) (c : Nat) (unt : Bool) :
    Except FErr (List (Nat × ℚ)) × FieldState :=
  getCoeffsGo D fuel s c unt 0

/-- The value a boundary callback contributes in `get`: the registered
constant, or nothing (`nullptr` slot adds no term). -/
def boundaryVal (s : FieldState) (idx : Nat) : Option ℚ := s.boundary.getD idx none

/-- The `set<coord_t> boundary_shares` of `get`: duplicate boundary coords
collapse. -/
def dedup (l : List Nat) : List Nat :=
  l.foldl (fun acc b => if acc.contains b then acc else acc ++ [b]) []

/-- One corner of the non-existent branch of `get` (value version). -/
def getCornerStep (D : Nat) (unt : Bool) (high origin : Nat)
    (go : FieldState → Nat → Except FErr ℚ × FieldState) :
    Except FErr ℚ × FieldState → Nat → Except FErr ℚ × FieldState
  | (Except.error e, s), _ => (Except.error e, s)
  | (Except.ok acc, s), i =>
    let w := cornerWeight D high origin i
    let wk := cornerWalk D high origin i
    let current := wk.1
    let bset := dedup wk.2
    if bset ≠ [] then
      (Except.ok (bset.foldl (fun r b =>
        match boundaryVal s (GetBoundaryDirection D b) with
        | some v => r + v * (w / (bset.length : ℚ))
        | none => r) acc), s)
    else
      let ex := exists' s current
      if !ex || (ex && !isTopRaw s current && !unt) then
        match go (bumpDown s) current with
        | (Except.error e, s') => (Except.error e, s')
        | (Except.ok part, s') => (Except.ok (acc + part * w), s')
      else (Except.ok (acc + s.data.getD current 0 * w), s)

/-- One child of the existing-but-not-top branch of `get`. -/
def getChildStep (D : Nat) (c : Nat)
    (go : FieldState → Nat → Except FErr ℚ × FieldState) :
    Except FErr ℚ × FieldState → Nat → Except FErr ℚ × FieldState
  | (Except.error e, s), _ => (Except.error e, s)
  | (Except.ok acc, s), dir =>
    match go (bumpUp s) (IncreaseLevel D c dir) with
    | (Except.error e, s') => (Except.error e, s')
    | (Except.ok part, s') => (Except.ok (acc + part / (parts D : ℚ)), s')

/-- `Field::get` (the `void get(coord, result&, use_non_top)` overload, which
the value overload wraps with `result = 0`).  The source has no recursion
guard here; only the embedding's fuel bounds the recursion. -/
def getGo (D : Nat) : Nat → FieldState → Nat → Bool → Except FErr ℚ × FieldState
  | 0, s, _, _ => (Except.error FErr.noFuel, s)
  | fuel + 1, s, c, unt =>
    if IsBoundary c then
      match boundaryVal s (GetBoundaryDirection D c) with
      | some v => (Except.ok v, s)
      | none => (Except.ok 0, s)
    else if exists' s c then
      if unt || isTopRaw s c then (Except.ok (s.data.getD c 0), s)
      else
        (List.range (parts D)).foldl
          (getChildStep D c (fun s' c' => getGo D fuel s' c' unt))
          (Except.ok 0, s)
    else
      (List.range (parts D)).foldl
        (getCornerStep D unt (extract D c 0) (ReduceLevel D c)
          (fun s' c' => getGo D fuel s' c' unt))
        (Except.ok 0, s)

end Field

/-- Position of `Field::iterator`: the `current` coordinate and the `at_end`
flag (the write-only `global_index` member is omitted). -/
structure IterState where
  current : Nat
  at_end : Bool
deriving DecidableEq

namespace Field

open HCS

/-- The `do { ... } while (new_coord < current)` loop of
`Field::iterator::operator++` (non-`top_only` mode), with fuel.  The skip
computation reproduces the source literally: both `l_current` and `l_new`
are computed from `new_coord`, so the skip is always `parts ^ 0 = 1`. -/
def iterLoop (D : Nat) (s : FieldState) (only_level : Int) :
    Nat → Nat → Nat → Option IterState
  | 0, _, _ => none
  | fuel + 1, current, new_coord =>
    if new_coord = 0 ∧
        (CreateMinLevel D (GetLevel D (current - 1) + 1) ≥ s.tree.length - 1 ∨
          only_level > 0) then
      some ⟨CreateMinLevel D (GetLevel D (current - 1) + 1) - 1, true⟩
    else
      let current1 :=
        if new_coord = 0 then CreateMinLevel D (GetLevel D (current - 1) + 1)
        else current
      let current2 :=
        if new_coord < current1 then
          let l_current := GetLevel D new_coord
          let l_new := GetLevel D new_coord
          current1 + parts D ^ (l_new - l_current)
        else current1
      let new2 := s.tree.getD current2 0
      if new2 < current2 then iterLoop D s only_level fuel current2 new2
      else some ⟨current2, false⟩

/-- `Field::iterator::operator++`. -/
def iterNext (D : Nat) (s : FieldState) (top_only : Bool) (only_level : Int)
    (fuel : Nat) (it : IterState) : Option IterState :=
  if top_only then
    let cur := s.tree.getD (it.current + 1) 0
    some ⟨cur, decide (cur = 0)⟩
  else
    iterLoop D s only_level fuel (it.current + 1) (s.tree.getD (it.current + 1) 0)

/-- The `Field::iterator` constructor: `current = 1`,
`at_end = (tree[1] == 1)`, then the `top_only` / `only_level` adjustments;
requesting both modes throws. -/
def iterInit (D : Nat) (s : FieldState) (top_only : Bool) (only_level : Int)
    (fuel : Nat) : Except FErr (Option IterState) :=
  if top_only = true ∧ only_level > 0 then Except.error FErr.iterModes
  else
    let at_end := decide (s.tree.getD 1 0 = 1)
    if ¬at_end ∧ top_only then Except.ok (some ⟨s.tree.getD 1 0, at_end⟩)
    else if ¬at_end ∧ only_level > 0 then
      let cur := CreateMinLevel D only_level.toNat
      if exists' s cur then Except.ok (some ⟨cur, at_end⟩)
      else Except.ok (iterNext D s top_only only_level fuel ⟨cur, at_end⟩)
    else Except.ok (some ⟨1, at_end⟩)

/-- The counting loop shared by `nElements` and `nElementsTop`: number of
dereferences of a range-`for` over the iterator. -/
def countGo (D : Nat) (s : FieldState) (top_only : Bool) (only_level : Int)
    (fuel_it : Nat) : Nat → IterState → Option Nat
  | 0, _ => none
  | fuel + 1, it =>
    if it.at_end then some 0
    else
      match iterNext D s top_only only_level fuel_it it with
      | none => none
      | some it' => (countGo D s top_only only_level fuel_it fuel it').map (· + 1)

/-- `Field::nElements`: counts the range-`for` over `begin()` (all-existing
mode). -/
def nElements (D : Nat) (s : FieldState) (fuel : Nat) : Option Nat :=
  match iterInit D s false (-1) fuel with
  | Except.error _ => none
  | Except.ok none => none
  | Except.ok (some it) => countGo D s false (-1) fuel fuel it

/-- `Field::nElementsTop`: counts the loop over `begin(true)` (top-only
mode). -/
def nElementsTop (D : Nat) (s : FieldState) (fuel : Nat) : Option Nat :=
  match iterInit D s true (-1) fuel with
  | Except.error _ => none
  | Except.ok none => none
  | Except.ok (some it) => countGo D s true (-1) fuel fuel it

/-- `Field::treefill_up` with fuel: writes `value` into every descendant of
`start` that lies within the bounds given by `data.size()`. -/
def treefillUp (D dataLen : Nat) : Nat → Nat → Nat → List Nat → List Nat
  | 0, _, _, t => t
  | fuel + 1, start, value, t =>
    let lo := IncreaseLevel D start 0
    let hi := IncreaseLevel D start (partMask D)
    if dataLen ≤ hi then t
    else
      let t1 := (List.range (hi + 1 - lo)).foldl (fun tt k => tt.set (lo + k) value) t
      (List.range (hi + 1 - lo)).foldl (fun tt k => treefillUp D dataLen fuel (lo + k) value tt) t1

/-- `Field::refineFrom`: throws when the coord does not exist, silently
returns when it exists but is not top-level, otherwise grows the arrays if
needed, interpolates the 2^D child values via `get`, and rewrites the tree. -/
def refineFrom (D fuel : Nat) (s : FieldState) (c : Nat) (interpolate : Bool) :
    Except FErr Unit × FieldState :=
  if exists' s c = false then (Except.error FErr.notExist, s)
  else if isTopRaw s c = false then (Except.ok (), s)
  else
    let lo := IncreaseLevel D c 0
    let hi := IncreaseLevel D c (partMask D)
    let s1 :=
      if s.data.length ≤ hi then
        let mx := CreateMaxLevel D (GetLevel D hi) + 2
        { s with data := resizeList s.data mx 0, tree := resizeList s.tree mx 0 }
      else s
    let valsSt : Except FErr (List ℚ) × FieldState :=
      if interpolate then
        (List.range (parts D)).foldl (fun acc i =>
          match acc with
          | (Except.error e, st) => (Except.error e, st)
          | (Except.ok vs, st) =>
            match getGo D fuel st (lo + i) true with
            | (Except.error e, st') => (Except.error e, st')
            | (Except.ok v, st') => (Except.ok (vs ++ [v]), st')) (Except.ok [], s1)
      else (Except.ok (List.replicate (parts D) (s1.data.getD c 0)), s1)
    match valsSt with
    | (Except.error e, st) => (Except.error e, st)
    | (Except.ok vals, st) =>
      let t1 := st.tree.set c lo
      let fin := (List.range (hi + 1 - lo)).foldl (fun (acc : List ℚ × List Nat) k =>
        let cc := lo + k
        (acc.1.set cc (vals.getD (cc - lo) 0),
         treefillUp D st.data.length fuel cc cc (acc.2.set cc cc))) (st.data, t1)
      (Except.ok (), { st with data := fin.1, tree := fin.2 })

/-- The descent loop of `Field::refineTo`:
`while (!exists(existing)) { existing = ReduceLevel(existing); i++; }`,
with fuel; returns the found coordinate and the step count `i`. -/
def refineToDescend (D : Nat) (s : FieldState) : Nat → Nat → Nat → Option (Nat × Nat)
  | 0, _, _ => none
  | fuel + 1, existing, i =>
    if exists' s existing = true then some (existing, i)
    else refineToDescend D s fuel (ReduceLevel D existing) (i + 1)

/-- `Field::refineTo`: descend until an existing coord is found, then refine
back up along the path bits of `c`. -/
def refineTo (D fuel : Nat) (s : FieldState) (c : Nat) : Except FErr Unit × FieldState :=
  match refineToDescend D s fuel c 0 with
  | none => (Except.error FErr.noFuel, s)
  | some (existing0, i0) =>
    let fin := (List.range i0).foldl
      (fun (acc : Except FErr Unit × FieldState × Nat) k =>
        match acc with
        | (Except.error e, st, ex) => (Except.error e, st, ex)
        | (Except.ok _, st, ex) =>
          let i := i0 - 1 - k
          match refineFrom D fuel st ex true with
          | (Except.error e, st') => (Except.error e, st', ex)
          | (Except.ok _, st') => (Except.ok (), st', IncreaseLevel D ex (extract D c i)))
      (Except.ok (), s, existing0)
    (fin.1, fin.2.1)

end Field

/-- The concrete scenario field of the spec's S1: dimension 2, a fresh field
after `createEntireLevel(2)`. -/
def l2field : FieldState :=
  match Field.createEntireLevel 2 2 Field.emptyField with
  | Except.ok s => s
  | Except.error _ => Field.emptyField

/-- The four non-counter components of a field state are preserved between
`s` and `t`: `data`, `tree`, the boundary callbacks and the intermediate
slot. -/
def StructPreserved (s t : FieldState) : Prop :=
  t.data = s.data ∧ t.tree = s.tree ∧ t.boundary = s.boundary ∧
    t.intermediate = s.intermediate

namespace BitLemmas

/-- Bit 0 of `2 * a + u` for a bit value `u`. -/
theorem testBit_two_mul_add_zero (a u : Nat) (hu : u < 2) :
    (2 * a + u).testBit 0 = decide (u = 1) := by
  rw [Nat.testBit_zero]
  rcases (by omega : u = 0 ∨ u = 1) with h | h <;> subst h <;> simp <;> omega

/-- Bit `i + 1` of `2 * a + u` for a bit value `u`. -/
theorem testBit_two_mul_add_succ (a u i : Nat) (hu : u < 2) :
    (2 * a + u).testBit (i + 1) = a.testBit i := by
  rw [Nat.testBit_succ]
  congr 1
  omega

/-- `&&&` on the binary decomposition `2 * a + u`. -/
theorem land_two_mul_add (a b u v : Nat) (hu : u < 2) (hv : v < 2) :
    (2 * a + u) &&& (2 * b + v) = 2 * (a &&& b) + (u &&& v) := by
  have huv : u &&& v < 2 := Nat.lt_of_le_of_lt Nat.and_le_left hu
  apply Nat.eq_of_testBit_eq
  intro i
  cases i with
  | zero =>
    rw [Nat.testBit_and, testBit_two_mul_add_zero a u hu, testBit_two_mul_add_zero b v hv,
      testBit_two_mul_add_zero (a &&& b) (u &&& v) huv]
    rcases (by omega : u = 0 ∨ u = 1) with h | h <;>
      rcases (by omega : v = 0 ∨ v = 1) with h' | h' <;> subst h <;> subst h' <;> decide
  | succ i =>
    rw [Nat.testBit_and, testBit_two_mul_add_succ a u i hu, testBit_two_mul_add_succ b v i hv,
      testBit_two_mul_add_succ (a &&& b) (u &&& v) i huv, Nat.testBit_and]

/-- `|||` on the binary decomposition `2 * a + u`. -/
theorem lor_two_mul_add (a b u v : Nat) (hu : u < 2) (hv : v < 2) :
    (2 * a + u) ||| (2 * b + v) = 2 * (a ||| b) + (u ||| v) := by
  have huv : u ||| v < 2 := by
    rcases (by omega : u = 0 ∨ u = 1) with h | h <;>
      rcases (by omega : v = 0 ∨ v = 1) with h' | h' <;> subst h <;> subst h' <;> decide
  apply Nat.eq_of_testBit_eq
  intro i
  cases i with
  | zero =>
    rw [Nat.testBit_or, testBit_two_mul_add_zero a u hu, testBit_two_mul_add_zero b v hv,
      testBit_two_mul_add_zero (a ||| b) (u ||| v) huv]
    rcases (by omega : u = 0 ∨ u = 1) with h | h <;>
      rcases (by omega : v = 0 ∨ v = 1) with h' | h' <;> subst h <;> subst h' <;> decide
  | succ i =>
    rw [Nat.testBit_or, testBit_two_mul_add_succ a u i hu, testBit_two_mul_add_succ b v i hv,
      testBit_two_mul_add_succ (a ||| b) (u ||| v) i huv, Nat.testBit_or]

/-- `^^^` on the binary decomposition `2 * a + u`. -/
theorem xor_two_mul_add (a b u v : Nat) (hu : u < 2) (hv : v < 2) :
    (2 * a + u) ^^^ (2 * b + v) = 2 * (a ^^^ b) + (u ^^^ v) := by
  have huv : u ^^^ v < 2 := by
    rcases (by omega : u = 0 ∨ u = 1) with h | h <;>
      rcases (by omega : v = 0 ∨ v = 1) with h' | h' <;> subst h <;> subst h' <;> decide
  apply Nat.eq_of_testBit_eq
  intro i
  cases i with
  | zero =>
    rw [Nat.testBit_xor, testBit_two_mul_add_zero a u hu, testBit_two_mul_add_zero b v hv,
      testBit_two_mul_add_zero (a ^^^ b) (u ^^^ v) huv]
    rcases (by omega : u = 0 ∨ u = 1) with h | h <;>
      rcases (by omega : v = 0 ∨ v = 1) with h' | h' <;> subst h <;> subst h' <;> decide
  | succ i =>
    rw [Nat.testBit_xor, testBit_two_mul_add_succ a u i hu, testBit_two_mul_add_succ b v i hv,
      testBit_two_mul_add_succ (a ^^^ b) (u ^^^ v) i huv, Nat.testBit_xor]

/-- Oring in mask bits does not change the bits outside the mask. -/
theorem lor_land_compl (w c M : Nat) (hM : M < 2 ^ w) :
    (c ||| M) &&& ((2 ^ w - 1) ^^^ M) = c &&& ((2 ^ w - 1) ^^^ M) := by
  apply Nat.eq_of_testBit_eq
  intro i
  rw [Nat.testBit_and, Nat.testBit_and, Nat.testBit_or, Nat.testBit_xor,
    Nat.testBit_two_pow_sub_one]
  by_cases h : i < w
  · rw [decide_eq_true h]
    cases hMi : M.testBit i <;> cases c.testBit i <;> simp
  · have hMi : M.testBit i = false :=
      Nat.testBit_lt_two_pow (Nat.lt_of_lt_of_le hM (Nat.pow_le_pow_right (by omega) (by omega)))
    rw [decide_eq_false h, hMi]
    simp

/-- The masked-increment round trip: adding 1 through the filler mask `M` and
keeping only the bits outside `M` gives a value `y ≥ 1` with
`(y - 1) & ~M = c & ~M` — stepping back recovers the original bits outside
the mask. -/
theorem maskedRoundTrip :
    ∀ w c M : Nat, c < 2 ^ w → M < 2 ^ w → (c ||| M) + 1 < 2 ^ w →
      1 ≤ ((c ||| M) + 1) &&& ((2 ^ w - 1) ^^^ M) ∧
      ((((c ||| M) + 1) &&& ((2 ^ w - 1) ^^^ M)) - 1) &&& ((2 ^ w - 1) ^^^ M)
        = c &&& ((2 ^ w - 1) ^^^ M) := by
  intro w
  induction w with
  | zero =>
    intro c M hc hM ht
    omega
  | succ w ih =>
    intro c M hc hM ht
    obtain ⟨c', bc, hbc, rfl⟩ : ∃ a u, u < 2 ∧ c = 2 * a + u :=
      ⟨c / 2, c % 2, by omega, by omega⟩
    obtain ⟨M', bm, hbm, rfl⟩ : ∃ a u, u < 2 ∧ M = 2 * a + u :=
      ⟨M / 2, M % 2, by omega, by omega⟩
    have hpow : (2 : Nat) ^ (w + 1) = 2 * 2 ^ w := by rw [Nat.pow_succ]; ring
    have hone : (1 : Nat) ≤ 2 ^ w := Nat.one_le_two_pow
    have hK : (2 : Nat) ^ (w + 1) - 1 = 2 * (2 ^ w - 1) + 1 := by omega
    have hc' : c' < 2 ^ w := by omega
    have hM' : M' < 2 ^ w := by omega
    have hor := lor_two_mul_add c' M' bc bm hbc hbm
    rw [hor] at ht
    rw [hK, hor]
    set n' := c' ||| M' with hn'
    set K' := 2 ^ w - 1 with hK'
    rcases (by omega : bm = 0 ∨ bm = 1) with hm | hm
    · subst hm
      have hxor : (2 * K' + 1) ^^^ (2 * M' + 0) = 2 * (K' ^^^ M') + 1 :=
        xor_two_mul_add K' M' 1 0 (by omega) (by omega)
      rw [hxor]
      set q' := K' ^^^ M' with hq'
      rcases (by omega : bc = 0 ∨ bc = 1) with hb | hb
      · -- bm = 0, bc = 0 : the +1 lands in the free bit 0
        subst hb
        simp only [Nat.or_self]
        have h1 : 2 * n' + 0 + 1 = 2 * n' + 1 := by omega
        rw [h1]
        have h2 : (2 * n' + 1) &&& (2 * q' + 1) = 2 * (n' &&& q') + 1 :=
          land_two_mul_add n' q' 1 1 (by omega) (by omega)
        rw [h2]
        refine ⟨by omega, ?_⟩
        have h3 : 2 * (n' &&& q') + 1 - 1 = 2 * (n' &&& q') + 0 := by omega
        rw [h3]
        have h4 : (2 * (n' &&& q') + 0) &&& (2 * q' + 1) = 2 * ((n' &&& q') &&& q') + 0 :=
          land_two_mul_add (n' &&& q') q' 0 1 (by omega) (by omega)
        have h5 : (2 * c' + 0) &&& (2 * q' + 1) = 2 * (c' &&& q') + 0 :=
          land_two_mul_add c' q' 0 1 (by omega) (by omega)
        rw [h4, h5]
        have h6 : (n' &&& q') &&& q' = n' &&& q' := by
          rw [Nat.and_assoc, Nat.and_self]
        rw [h6, hn', hq', hK']
        rw [lor_land_compl w c' M' hM']
      · -- bm = 0, bc = 1 : carry into the bits above
        subst hb
        simp only [Nat.or_zero]
        simp only [Nat.or_zero] at ht
        have h1 : 2 * n' + 1 + 1 = 2 * (n' + 1) + 0 := by omega
        rw [h1]
        have h2 : (2 * (n' + 1) + 0) &&& (2 * q' + 1) = 2 * ((n' + 1) &&& q') + 0 :=
          land_two_mul_add (n' + 1) q' 0 1 (by omega) (by omega)
        rw [h2]
        have hlt : n' + 1 < 2 ^ w := by omega
        obtain ⟨ihy, ihe⟩ := ih c' M' hc' hM' (by omega)
        rw [← hq'] at ihy ihe
        set y' := (n' + 1) &&& q' with hy'
        refine ⟨by omega, ?_⟩
        have h3 : 2 * y' + 0 - 1 = 2 * (y' - 1) + 1 := by omega
        rw [h3]
        have h4 : (2 * (y' - 1) + 1) &&& (2 * q' + 1) = 2 * ((y' - 1) &&& q') + 1 :=
          land_two_mul_add (y' - 1) q' 1 1 (by omega) (by omega)
        have h5 : (2 * c' + 1) &&& (2 * q' + 1) = 2 * (c' &&& q') + 1 :=
          land_two_mul_add c' q' 1 1 (by omega) (by omega)
        rw [h4, h5, ihe]
    · subst hm
      have hxor : (2 * K' + 1) ^^^ (2 * M' + 1) = 2 * (K' ^^^ M') + 0 :=
        xor_two_mul_add K' M' 1 1 (by omega) (by omega)
      rw [hxor]
      set q' := K' ^^^ M' with hq'
      have hbor : bc ||| 1 = 1 := by
        rcases (by omega : bc = 0 ∨ bc = 1) with hb | hb <;> subst hb <;> decide
      rw [hbor]
      rw [hbor] at ht
      have h1 : 2 * n' + 1 + 1 = 2 * (n' + 1) + 0 := by omega
      rw [h1]
      have h2 : (2 * (n' + 1) + 0) &&& (2 * q' + 0) = 2 * ((n' + 1) &&& q') + 0 :=
        land_two_mul_add (n' + 1) q' 0 0 (by omega) (by omega)
      rw [h2]
      obtain ⟨ihy, ihe⟩ := ih c' M' hc' hM' (by omega)
      rw [← hq'] at ihy ihe
      set y' := (n' + 1) &&& q' with hy'
      refine ⟨by omega, ?_⟩
      have h3 : 2 * y' + 0 - 1 = 2 * (y' - 1) + 1 := by omega
      rw [h3]
      have h4 : (2 * (y' - 1) + 1) &&& (2 * q' + 0) = 2 * ((y' - 1) &&& q') + 0 :=
        land_two_mul_add (y' - 1) q' 1 0 (by omega) (by omega)
      have h5 : (2 * c' + bc) &&& (2 * q' + 0) = 2 * (c' &&& q') + (bc &&& 0) :=
        land_two_mul_add c' q' bc 0 hbc (by omega)
      have h6 : bc &&& 0 = 0 := by
        rcases (by omega : bc = 0 ∨ bc = 1) with hb | hb <;> subst hb <;> decide
      rw [h4, h5, h6, ihe]

end BitLemmas

namespace BitLemmas

/-- Distributivity of `&&&` over `|||` on `Nat`. -/
theorem lor_land_distrib (x y z : Nat) : (x ||| y) &&& z = (x &&& z) ||| (y &&& z) := by
  apply Nat.eq_of_testBit_eq
  intro i
  rw [Nat.testBit_or, Nat.testBit_and, Nat.testBit_or, Nat.testBit_and, Nat.testBit_and]
  cases x.testBit i <;> cases y.testBit i <;> cases z.testBit i <;> rfl

/-- Masked bits vanish under the 64-bit complement of the mask. -/
theorem land_land_compl64 (x M : Nat) (hx : x < 2 ^ 64) :
    (x &&& M) &&& (HCS.mask64 ^^^ M) = 0 := by
  apply Nat.eq_of_testBit_eq
  intro i
  rw [Nat.testBit_and, Nat.testBit_and, Nat.testBit_xor, Nat.zero_testBit]
  simp only [HCS.mask64]
  rw [Nat.testBit_two_pow_sub_one]
  by_cases h : i < 64
  · rw [decide_eq_true h]
    cases x.testBit i <;> cases M.testBit i <;> rfl
  · have hxi : x.testBit i = false :=
      Nat.testBit_lt_two_pow (Nat.lt_of_lt_of_le hx (Nat.pow_le_pow_right (by omega) (by omega)))
    rw [hxi]
    rfl

/-- Splitting a 64-bit value along a mask and recombining gives it back. -/
theorem land_compl64_recombine (c M : Nat) (hc : c < 2 ^ 64) :
    (c &&& (HCS.mask64 ^^^ M)) ||| (M &&& c) = c := by
  apply Nat.eq_of_testBit_eq
  intro i
  rw [Nat.testBit_or, Nat.testBit_and, Nat.testBit_and, Nat.testBit_xor]
  simp only [HCS.mask64]
  rw [Nat.testBit_two_pow_sub_one]
  by_cases h : i < 64
  · rw [decide_eq_true h]
    cases c.testBit i <;> cases M.testBit i <;> rfl
  · have hci : c.testBit i = false :=
      Nat.testBit_lt_two_pow (Nat.lt_of_lt_of_le hc (Nat.pow_le_pow_right (by omega) (by omega)))
    rw [hci]
    cases M.testBit i <;> rfl

/-- An or-fold of values below `2 ^ k` stays below `2 ^ k`. -/
theorem foldl_lor_lt_two_pow (k : Nat) (f : Nat → Nat) :
    ∀ (l : List Nat) (acc : Nat), acc < 2 ^ k → (∀ x ∈ l, f x < 2 ^ k) →
      l.foldl (fun a x => a ||| f x) acc < 2 ^ k := by
  intro l
  induction l with
  | nil => intro acc hacc _; simpa using hacc
  | cons x xs ih =>
    intro acc hacc hf
    simp only [List.foldl_cons]
    exact ih (acc ||| f x) (Nat.or_lt_two_pow hacc (hf x (by simp)))
      (fun y hy => hf y (by simp [hy]))

end BitLemmas

/-- The successor mask of an axis fits far below the boundary bits: it only
occupies body bits, which end below bit 61. -/
theorem evenMask_lt_two_pow_61 (D a : Nat) (ha : a < D) : HCS.evenMask D a < 2 ^ 61 := by
  have hD : 1 ≤ D := by omega
  have hsingle : HCS.singleMask D a < 2 ^ D := by
    have h1 : HCS.partMask D < 2 ^ D := by
      have := Nat.one_le_two_pow (n := D)
      unfold HCS.partMask
      omega
    have h2 : (1 <<< a : Nat) < 2 ^ D := by
      rw [Nat.shiftLeft_eq, one_mul]
      exact Nat.pow_lt_pow_right (by omega) ha
    exact Nat.xor_lt_two_pow h1 h2
  have hml : D * HCS.maxLevel D ≤ 61 := by
    have h1 : D * HCS.maxLevel D ≤ 64 - 2 - D := by
      rw [Nat.mul_comm]
      exact Nat.div_mul_le_self _ _
    omega
  unfold HCS.evenMask
  have hlt : ∀ x ∈ List.range (HCS.maxLevel D), HCS.singleMask D a <<< (D * x) < 2 ^ 61 := by
    intro x hx
    have hxr : x < HCS.maxLevel D := List.mem_range.mp hx
    rw [Nat.shiftLeft_eq]
    calc HCS.singleMask D a * 2 ^ (D * x)
        < 2 ^ D * 2 ^ (D * x) :=
          (Nat.mul_lt_mul_right (Nat.pos_pow_of_pos _ (by omega))).mpr hsingle
      _ = 2 ^ (D + D * x) := by rw [← Nat.pow_add]
      _ ≤ 2 ^ 61 := by
          apply Nat.pow_le_pow_right (by omega)
          have hx1 : D * (x + 1) ≤ D * HCS.maxLevel D := Nat.mul_le_mul_left _ (by omega)
          have hx2 : D * (x + 1) = D + D * x := by ring
          omega
  have := BitLemmas.foldl_lor_lt_two_pow 61
    (fun l => HCS.singleMask D a <<< (D * l)) (List.range (HCS.maxLevel D)) 0
    (Nat.pos_pow_of_pos _ (by omega)) hlt
  exact this

/-- A 64-bit value whose top bit is clear is below `2 ^ 63`. -/
theorem lt_two_pow_63_of_not_boundary (c : Nat) (hc : c < 2 ^ 64)
    (h : HCS.IsBoundary c = false) : c < 2 ^ 63 := by
  by_contra h'
  have hbit : c.testBit 63 = true := by
    rw [Nat.testBit_to_div_mod]
    have hdiv : c / 2 ^ 63 = 1 := by
      have e : (2 : Nat) ^ 64 = 2 ^ 63 * 2 := by ring
      rw [e] at hc
      omega
    rw [hdiv]
    rfl
  unfold HCS.IsBoundary at h
  rw [h] at hbit
  exact Bool.noConfusion hbit

/-- The boundary branch of `getNeighbor` always produces a marked coord. -/
theorem isBoundary_mark (x z : Nat) : HCS.IsBoundary (x ||| 1 <<< 63 ||| z) = true := by
  unfold HCS.IsBoundary
  rw [Nat.testBit_or, Nat.testBit_or]
  have h63 : (1 <<< 63 : Nat).testBit 63 = true := by
    rw [Nat.shiftLeft_eq, one_mul]
    exact Nat.testBit_two_pow_self
  rw [h63]
  simp

/-- A non-boundary neighbor result comes from the arithmetic branch, and the
leading-zero count was unchanged. -/
theorem getNeighbor_not_boundary (D c d : Nat)
    (h : HCS.IsBoundary (HCS.getNeighbor D c d) = false) :
    HCS.getNeighbor D c d = HCS.neighborArith D c d ∧
      HCS.clz c = HCS.clz (HCS.neighborArith D c d) := by
  by_cases hcl : HCS.clz c = HCS.clz (HCS.neighborArith D c d)
  · constructor
    · unfold HCS.getNeighbor
      rw [if_pos hcl]
    · exact hcl
  · exfalso
    unfold HCS.getNeighbor at h
    rw [if_neg hcl, isBoundary_mark] at h
    exact Bool.noConfusion h

/-- Claim C9: on the successor-arithmetic neighbor, stepping once in the
positive direction of an axis and once in the negative direction returns to
the start, provided neither step crossed the domain boundary. -/
theorem c9_neighbor_involution (D a c : Nat) (ha : a < D) (hc : c < 2 ^ 64)
    (hcb : HCS.IsBoundary c = false)
    (h1 : HCS.IsBoundary (HCS.getNeighbor D c (2 * a)) = false)
    (h2 : HCS.IsBoundary (HCS.getNeighbor D (HCS.getNeighbor D c (2 * a)) (2 * a + 1)) = false) :
    HCS.getNeighbor D (HCS.getNeighbor D c (2 * a)) (2 * a + 1) = c := by
  have p63 : (2 : Nat) ^ 63 = 9223372036854775808 := by norm_num
  have p64 : (2 : Nat) ^ 64 = 18446744073709551616 := by norm_num
  have hmv : HCS.mask64 = 2 ^ 64 - 1 := rfl
  set M := HCS.evenMask D a with hMdef
  have hs_even : HCS.successorMask D (2 * a) = M := by
    unfold HCS.successorMask
    rw [if_pos (by omega : (2 * a) % 2 = 0)]
    rw [hMdef]
    congr 1
    omega
  have hs_odd : HCS.successorMask D (2 * a + 1) = HCS.mask64 ^^^ M := by
    unfold HCS.successorMask
    rw [if_neg (by omega : ¬ (2 * a + 1) % 2 = 0)]
    rw [hMdef]
    congr 2
    omega
  have hM61 : M < 2 ^ 61 := evenMask_lt_two_pow_61 D a ha
  have hM64 : M < 2 ^ 64 := by omega
  have hc63 : c < 2 ^ 63 := lt_two_pow_63_of_not_boundary c hc hcb
  have horlt : c ||| M < 2 ^ 63 := Nat.or_lt_two_pow hc63 (by omega)
  have hAlt : (c ||| M) + 1 < 2 ^ 64 := by omega
  have e1 : HCS.neighborArith D c (2 * a) =
      (((c ||| M) + 1) &&& (HCS.mask64 ^^^ M)) ||| (M &&& c) := by
    unfold HCS.neighborArith
    rw [hs_even, if_neg (by omega : ¬ (2 * a) % 2 = 1), Nat.mod_eq_of_lt hAlt]
  obtain ⟨hgn1, hclz1⟩ := getNeighbor_not_boundary D c (2 * a) h1
  obtain ⟨hy1, hy2⟩ := BitLemmas.maskedRoundTrip 64 c M hc hM64 hAlt
  rw [← hmv] at hy1 hy2
  set y := ((c ||| M) + 1) &&& (HCS.mask64 ^^^ M) with hydef
  set r := HCS.getNeighbor D c (2 * a) with hrdef
  have hr : r = y ||| (M &&& c) := by rw [hgn1, e1]
  have hylt : y < 2 ^ 64 := by
    have h1' : y ≤ HCS.mask64 ^^^ M := Nat.and_le_right
    have h2' : HCS.mask64 ^^^ M < 2 ^ 64 :=
      Nat.xor_lt_two_pow (by omega) hM64
    omega
  -- the bits of r on either side of the mask
  have hrq : r &&& (HCS.mask64 ^^^ M) = y := by
    rw [hr, BitLemmas.lor_land_distrib]
    have hyq : y &&& (HCS.mask64 ^^^ M) = y := by
      rw [hydef, Nat.and_assoc, Nat.and_self]
    have hmc : (M &&& c) &&& (HCS.mask64 ^^^ M) = 0 := by
      rw [Nat.and_comm M c]
      exact BitLemmas.land_land_compl64 c M hc
    rw [hyq, hmc, Nat.or_zero]
  have hmr : M &&& r = M &&& c := by
    rw [hr, Nat.and_comm M (y ||| (M &&& c)), BitLemmas.lor_land_distrib]
    have hym : y &&& M = 0 := by
      rw [hydef, Nat.and_comm (((c ||| M) + 1) &&& (HCS.mask64 ^^^ M)) M,
        ← Nat.and_assoc, Nat.and_comm M ((c ||| M) + 1)]
      exact BitLemmas.land_land_compl64 ((c ||| M) + 1) M hAlt
    have hmm : (M &&& c) &&& M = M &&& c := by
      rw [Nat.and_comm M c, Nat.and_assoc, Nat.and_self, Nat.and_comm c M]
    rw [hym, hmm, Nat.zero_or]
  -- the arithmetic of the negative step undoes the positive one
  have e2 : HCS.neighborArith D r (2 * a + 1) = c := by
    unfold HCS.neighborArith
    rw [hs_odd, if_pos (by omega : (2 * a + 1) % 2 = 1)]
    rw [hrq]
    have hxc : HCS.mask64 ^^^ (HCS.mask64 ^^^ M) = M := Nat.xor_cancel_left _ _
    rw [hxc, hmr]
    have hmod : (y + HCS.mask64) % 2 ^ 64 = y - 1 := by
      have e : y + HCS.mask64 = (y - 1) + 1 * 2 ^ 64 := by rw [hmv]; omega
      rw [e, Nat.add_mul_mod_self_right, Nat.mod_eq_of_lt (by omega)]
    rw [hmod, hy2]
    exact BitLemmas.land_compl64_recombine c M hc
  have hclzr : HCS.clz r = HCS.clz c := by
    rw [hgn1, ← hclz1]
  unfold HCS.getNeighbor
  rw [e2, if_pos hclzr]

theorem structPreserved_refl (s : FieldState) : StructPreserved s s :=
  ⟨rfl, rfl, rfl, rfl⟩

theorem structPreserved_trans {s t u : FieldState}
    (h1 : StructPreserved s t) (h2 : StructPreserved t u) : StructPreserved s u :=
  ⟨h2.1.trans h1.1, h2.2.1.trans h1.2.1, h2.2.2.1.trans h1.2.2.1, h2.2.2.2.trans h1.2.2.2⟩

theorem structPreserved_bumpUp (s : FieldState) : StructPreserved s (Field.bumpUp s) :=
  ⟨rfl, rfl, rfl, rfl⟩

theorem structPreserved_bumpDown (s : FieldState) : StructPreserved s (Field.bumpDown s) :=
  ⟨rfl, rfl, rfl, rfl⟩

theorem foldl_preserves {α β : Type} (P : β → Prop) (f : β → α → β)
    (hf : ∀ b a, P b → P (f b a)) :
    ∀ (l : List α) (b : β), P b → P (l.foldl f b) := by
  intro l
  induction l with
  | nil => intro b hb; simpa using hb
  | cons x xs ih =>
    intro b hb
    simp only [List.foldl_cons]
    exact ih (f b x) (hf b x hb)

theorem coeffCornerStep_preserves (D : Nat) (unt : Bool) (high origin : Nat)
    (go : FieldState → Nat → Except FErr (List (Nat × ℚ)) × FieldState)
    (hgo : ∀ s c, StructPreserved s (go s c).2) (s0 : FieldState) :
    ∀ (acc : Except FErr (List (Nat × ℚ)) × FieldState) (i : Nat),
      StructPreserved s0 acc.2 →
      StructPreserved s0 (Field.coeffCornerStep D unt high origin go acc i).2 := by
  rintro ⟨res, s⟩ i h
  cases res with
  | error e => exact h
  | ok m =>
    simp only [Field.coeffCornerStep]
    split
    · exact h
    · split
      · have hg := hgo (Field.bumpDown s)
          (Field.cornerWalk D high origin i).1
        have hsb : StructPreserved s0 (Field.bumpDown s) :=
          structPreserved_trans h (structPreserved_bumpDown s)
        split
        next e s' heq =>
          have : (go (Field.bumpDown s) (Field.cornerWalk D high origin i).1).2 = s' := by
            rw [heq]
          rw [← this]
          exact structPreserved_trans hsb hg
        next part s' heq =>
          have : (go (Field.bumpDown s) (Field.cornerWalk D high origin i).1).2 = s' := by
            rw [heq]
          rw [← this]
          exact structPreserved_trans hsb hg
      · exact h

theorem coeffChildStep_preserves (D : Nat) (c : Nat)
    (go : FieldState → Nat → Except FErr (List (Nat × ℚ)) × FieldState)
    (hgo : ∀ s c', StructPreserved s (go s c').2) (s0 : FieldState) :
    ∀ (acc : Except FErr (List (Nat × ℚ)) × FieldState) (dir : Nat),
      StructPreserved s0 acc.2 →
      StructPreserved s0 (Field.coeffChildStep D c go acc dir).2 := by
  rintro ⟨res, s⟩ dir h
  cases res with
  | error e => exact h
  | ok m =>
    simp only [Field.coeffChildStep]
    have hg := hgo (Field.bumpUp s) (HCS.IncreaseLevel D c dir)
    have hsb : StructPreserved s0 (Field.bumpUp s) :=
      structPreserved_trans h (structPreserved_bumpUp s)
    split
    next e s' heq =>
      have : (go (Field.bumpUp s) (HCS.IncreaseLevel D c dir)).2 = s' := by rw [heq]
      rw [← this]
      exact structPreserved_trans hsb hg
    next part s' heq =>
      have : (go (Field.bumpUp s) (HCS.IncreaseLevel D c dir)).2 = s' := by rw [heq]
      rw [← this]
      exact structPreserved_trans hsb hg

theorem getCoeffsGo_preserves (D : Nat) :
    ∀ (fuel : Nat) (s : FieldState) (c : Nat) (unt : Bool) (recursion : Nat),
      StructPreserved s (Field.getCoeffsGo D fuel s c unt recursion).2 := by
  intro fuel
  induction fuel with
  | zero => intro s c unt rec; exact structPreserved_refl s
  | succ fuel ih =>
    intro s c unt rec
    simp only [Field.getCoeffsGo]
    split
    · exact structPreserved_refl s
    · split
      · exact structPreserved_refl s
      · split
        · split
          · exact structPreserved_refl s
          · exact foldl_preserves (fun acc => StructPreserved s acc.2) _
              (fun b a hb => coeffChildStep_preserves D c _
                (fun s' c' => ih s' c' unt (rec + 1)) s b a hb)
              (List.range (HCS.parts D)) (Except.ok [], s) (structPreserved_refl s)
        · exact foldl_preserves (fun acc => StructPreserved s acc.2) _
            (fun b a hb => coeffCornerStep_preserves D unt (HCS.extract D c 0)
              (HCS.ReduceLevel D c) _ (fun s' c' => ih s' c' unt (rec + 1)) s b a hb)
            (List.range (HCS.parts D)) (Except.ok [], s) (structPreserved_refl s)

theorem getCornerStep_preserves (D : Nat) (unt : Bool) (high origin : Nat)
    (go : FieldState → Nat → Except FErr ℚ × FieldState)
    (hgo : ∀ s c, StructPreserved s (go s c).2) (s0 : FieldState) :
    ∀ (acc : Except FErr ℚ × FieldState) (i : Nat),
      StructPreserved s0 acc.2 →
      StructPreserved s0 (Field.getCornerStep D unt high origin go acc i).2 := by
  rintro ⟨res, s⟩ i h
  cases res with
  | error e => exact h
  | ok acc0 =>
    simp only [Field.getCornerStep]
    split
    · exact h
    · split
      · have hg := hgo (Field.bumpDown s)
          (Field.cornerWalk D high origin i).1
        have hsb : StructPreserved s0 (Field.bumpDown s) :=
          structPreserved_trans h (structPreserved_bumpDown s)
        split
        next e s' heq =>
          have : (go (Field.bumpDown s) (Field.cornerWalk D high origin i).1).2 = s' := by
            rw [heq]
          rw [← this]
          exact structPreserved_trans hsb hg
        next part s' heq =>
          have : (go (Field.bumpDown s) (Field.cornerWalk D high origin i).1).2 = s' := by
            rw [heq]
          rw [← this]
          exact structPreserved_trans hsb hg
      · exact h

theorem getChildStep_preserves (D : Nat) (c : Nat)
    (go : FieldState → Nat → Except FErr ℚ × FieldState)
    (hgo : ∀ s c', StructPreserved s (go s c').2) (s0 : FieldState) :
    ∀ (acc : Except FErr ℚ × FieldState) (dir : Nat),
      StructPreserved s0 acc.2 →
      StructPreserved s0 (Field.getChildStep D c go acc dir).2 := by
  rintro ⟨res, s⟩ dir h
  cases res with
  | error e => exact h
  | ok acc0 =>
    simp only [Field.getChildStep]
    have hg := hgo (Field.bumpUp s) (HCS.IncreaseLevel D c dir)
    have hsb : StructPreserved s0 (Field.bumpUp s) :=
      structPreserved_trans h (structPreserved_bumpUp s)
    split
    next e s' heq =>
      have : (go (Field.bumpUp s) (HCS.IncreaseLevel D c dir)).2 = s' := by rw [heq]
      rw [← this]
      exact structPreserved_trans hsb hg
    next part s' heq =>
      have : (go (Field.bumpUp s) (HCS.IncreaseLevel D c dir)).2 = s' := by rw [heq]
      rw [← this]
      exact structPreserved_trans hsb hg

theorem getGo_preserves (D : Nat) :
    ∀ (fuel : Nat) (s : FieldState) (c : Nat) (unt : Bool),
      StructPreserved s (Field.getGo D fuel s c unt).2 := by
  intro fuel
  induction fuel with
  | zero => intro s c unt; exact structPreserved_refl s
  | succ fuel ih =>
    intro s c unt
    simp only [Field.getGo]
    split
    · split
      · exact structPreserved_refl s
      · exact structPreserved_refl s
    · split
      · split
        · exact structPreserved_refl s
        · exact foldl_preserves (fun acc => StructPreserved s acc.2) _
            (fun b a hb => getChildStep_preserves D c _
              (fun s' c' => ih s' c' unt) s b a hb)
            (List.range (HCS.parts D)) (Except.ok 0, s) (structPreserved_refl s)
      · exact foldl_preserves (fun acc => StructPreserved s acc.2) _
          (fun b a hb => getCornerStep_preserves D unt (HCS.extract D c 0)
            (HCS.ReduceLevel D c) _ (fun s' c' => ih s' c' unt) s b a hb)
          (List.range (HCS.parts D)) (Except.ok 0, s) (structPreserved_refl s)

set_option maxRecDepth 10000 in
/-- Claim C1.  The spec says `exists(c)` is false iff `c` is a boundary coord
or `c ≥ size(tree)`, and otherwise returns `tree[c] ≥ c`.  The source instead
tests `tree.size() >= coord`, so on the S1 field the coordinate 16 — which is
in bounds, has `tree[16] = 16` and should exist per the spec reading
(`existsSpec`) — is reported as non-existent by the code (`exists'`). -/
theorem c1_exists_bounds_check_flipped :
    Field.existsSpec l2field 16 = true ∧ Field.exists' l2field 16 = false ∧
    l2field.tree.getD 16 0 = 16 ∧ 16 < l2field.tree.length ∧
    HCS.IsBoundary 16 = false := by
  decide

set_option maxRecDepth 40000 in
/-- Claim C2.  On the S1 field and the non-boundary coordinate 4 (which per
the spec exists and should yield the singleton map `{4 ↦ 1}` summing to 1),
`getCoeffs` never produces a coefficient map at all: because the flipped
bounds test makes every in-bounds coord non-existent, the interpolation
descends forever and the `recursion > max_level` guard fires — the source
calls `exit(1)` — for either value of `use_non_top`. -/
theorem c2_getCoeffs_hits_fatal_recursion_guard :
    HCS.IsBoundary 4 = false ∧
    (Field.getCoeffs 2 64 l2field 4 true).1 = Except.error FErr.recLimit ∧
    (Field.getCoeffs 2 64 l2field 4 false).1 = Except.error FErr.recLimit :=
  ⟨by decide, rfl, rfl⟩

set_option maxRecDepth 10000 in
/-- Claim C3.  After `clear()` the field should contain exactly the singleton
center, with `tree[1] = 1` and `exists(1)` true.  The final statement of the
source's `clear` is `tree[1] == 1;` — a comparison, not an assignment — so
`tree[1]` stays 0 and the center does not exist afterwards, under the code's
`exists'` and even under the spec's `existsSpec` reading. -/
theorem c3_clear_leaves_center_nonexistent :
    (Field.clear l2field).tree = [0, 0] ∧
    (Field.clear l2field).tree.getD 1 0 = 0 ∧
    Field.exists' (Field.clear l2field) 1 = false ∧
    Field.existsSpec (Field.clear l2field) 1 = false := by
  decide

/-- Claim C4.  Stepping from the 2-dimensional coordinate 4 in direction
`d = 1` (X-) crosses the domain edge, so the result is boundary-marked and
`removeBoundary` recovers 4; but `GetBoundaryDirection` returns 2, not the
claimed `d = 1`, because the source ORs `direction << (W-2)` into the result
instead of `direction << (W-1-D)` where `GetBoundaryDirection` reads it. -/
theorem c4_boundary_direction_not_round_tripped :
    HCS.IsBoundary (HCS.getNeighbor 2 4 1) = true ∧
    HCS.removeBoundary 2 (HCS.getNeighbor 2 4 1) = 4 ∧
    HCS.GetBoundaryDirection 2 (HCS.getNeighbor 2 4 1) = 2 := by
  decide

set_option maxRecDepth 10000 in
/-- Claim C5.  On a freshly constructed 2-dimensional field after
`createEntireLevel(2)` the claim expects `nElements = 20`,
`nElementsTop = 16`, `exists(1)` true and `isTop(1)` false.  The code yields
19 (the all-existing iterator counts the never-populated index 1 and skips
the first coordinate of each level after a gap), 1 (the top-only iterator
starts at `tree[1] = 0`, which also terminates it), `exists(1)` false (the
flipped bounds test, and `tree[1]` is never written by the level loop
`l = level .. 1`), and `isTop(1)` throws instead of returning false. -/
theorem c5_create_entire_level_scenario :
    Field.createEntireLevel 2 2 Field.emptyField = Except.ok l2field ∧
    Field.nElements 2 l2field 200 = some 19 ∧
    Field.nElementsTop 2 l2field 200 = some 1 ∧
    Field.exists' l2field 1 = false ∧
    Field.isTop l2field 1 = Except.error FErr.notExist :=
  ⟨rfl, by decide, by decide, by decide, rfl⟩

/-- Claim C6.  `refineTo(4)` on the S1 field should find the existing
coordinate 4 after at most `level(4) = 1` descent steps.  Instead the
descent loop never finds any existing coordinate, for any amount of fuel:
`exists` is false for every in-bounds coord, and once the descent reaches
the center, `ReduceLevel 1 = 1` keeps it there forever — the source loop
`while (!exists(existing))` does not terminate. -/
theorem c6_refineTo_descent_never_finds :
    ∀ fuel i : Nat, Field.refineToDescend 2 l2field fuel 4 i = none := by
  have h1 : ∀ fuel i : Nat, Field.refineToDescend 2 l2field fuel 1 i = none := by
    intro fuel
    induction fuel with
    | zero => intro i; rfl
    | succ fuel ih =>
      intro i
      have hex : Field.exists' l2field 1 = false := by decide
      have hred : HCS.ReduceLevel 2 1 = 1 := by decide
      simp only [Field.refineToDescend]
      rw [if_neg (by simp [hex]), hred]
      exact ih (i + 1)
  intro fuel i
  cases fuel with
  | zero => rfl
  | succ fuel =>
    have hex : Field.exists' l2field 4 = false := by decide
    have hred : HCS.ReduceLevel 2 4 = 1 := by decide
    simp only [Field.refineToDescend]
    rw [if_neg (by simp [hex]), hred]
    exact h1 fuel (i + 1)

/-- Claim C7.  `refineFrom(c)` raises a `range_error` and leaves the field
unchanged both when `c` does not exist per the code's own test, and when the
tree marks `c` as an existing non-top coordinate (`c` in bounds,
`tree[c] ≥ c`, `tree[c] ≠ c`): in the latter case the flipped bounds test of
`exists` makes the first precondition check fire, so the call still fails
with a precondition error and never returns normally without refining. -/
theorem c7_refineFrom_fails_precondition :
    ∀ (D fuel : Nat) (s : FieldState) (c : Nat) (interp : Bool),
      (Field.exists' s c = false →
        Field.refineFrom D fuel s c interp = (Except.error FErr.notExist, s)) ∧
      (HCS.IsBoundary c = false → c < s.tree.length → c ≤ s.tree.getD c 0 →
        s.tree.getD c 0 ≠ c →
        Field.refineFrom D fuel s c interp = (Except.error FErr.notExist, s)) := by
  intro D fuel s c interp
  constructor
  · intro hex
    unfold Field.refineFrom
    rw [if_pos hex]
  · intro hb hlen hge hne
    have hcond : (HCS.IsBoundary c || decide (s.tree.length ≥ c)) = true := by
      rw [decide_eq_true (Nat.le_of_lt hlen), Bool.or_true]
    have hex : Field.exists' s c = false := by
      unfold Field.exists'
      rw [if_pos hcond]
    unfold Field.refineFrom
    rw [if_pos hex]

set_option maxRecDepth 10000 in
/-- Witness for C7: on the S1 field, `refineFrom` fails with the
precondition error and unchanged state both at the absent coordinate 8 and
at the coordinate 4, which the tree marks as existing and non-top
(`tree[4] = 16`). -/
theorem c7_refineFrom_fails_precondition_witness :
    Field.refineFrom 2 16 l2field 8 true = (Except.error FErr.notExist, l2field) ∧
    Field.refineFrom 2 16 l2field 4 true = (Except.error FErr.notExist, l2field) := by
  constructor
  · exact (c7_refineFrom_fails_precondition 2 16 l2field 8 true).1 (by decide)
  · exact (c7_refineFrom_fails_precondition 2 16 l2field 4 true).2 (by decide) (by decide)
      (by decide) (by decide)

set_option maxRecDepth 40000 in
/-- Claim C8 counterexample: a single `getCoeffs` call changes the field
state — the statistics member `coeff_down_count` is incremented on every
descent into a non-existent coordinate (31 times before the recursion guard
aborts this call), so the state after the call differs from the state
before. -/
theorem c8_reader_mutates_counters :
    (Field.getCoeffs 2 64 l2field 4 true).2 ≠ l2field ∧
    (Field.getCoeffs 2 64 l2field 4 true).2.coeff_down_count = 31 ∧
    l2field.coeff_down_count = 0 :=
  ⟨by decide, by decide, by decide⟩

/-- Claim C8 as amended: `get` and `getCoeffs` leave `data`, `tree`, the
boundary callbacks and the intermediate slot unchanged for every field
state, coordinate, flag and fuel — only the two statistics counters
`coeff_up_count` / `coeff_down_count` may change.  (`exists` and `isTop` are
modelled as pure functions: they do not touch the state at all.) -/
theorem c8_readers_preserve_all_but_counters :
    ∀ (D fuel : Nat) (s : FieldState) (c : Nat) (unt : Bool),
      StructPreserved s (Field.getGo D fuel s c unt).2 ∧
      StructPreserved s (Field.getCoeffs D fuel s c unt).2 :=
  fun D fuel s c unt =>
    ⟨getGo_preserves D fuel s c unt, getCoeffsGo_preserves D fuel s c unt 0⟩

/-- Witness for C9: in two dimensions, from coordinate 4 the positive-X step
gives the interior coordinate 5 and the negative-X step returns to 4. -/
theorem c9_neighbor_involution_witness :
    HCS.IsBoundary (HCS.getNeighbor 2 4 (2 * 0)) = false ∧
    HCS.getNeighbor 2 (HCS.getNeighbor 2 4 (2 * 0)) (2 * 0 + 1) = 4 :=
  ⟨by decide,
    c9_neighbor_involution 2 0 4 (by decide) (by decide) (by decide) (by decide) (by decide)⟩

/-- Claim C10 counterexample: at `D = 3` the constructor computes
`max_level = (64 - 2 - 3) / 3 = 19` (matching the header comment "3D
recursion depth of 19"), while the spec's formula `(W - 1 - D) / D` gives
20. -/
theorem c10_spec_formula_fails_at_three_dims :
    HCS.maxLevel 3 = 19 ∧ (64 - 1 - 3) / 3 = 20 ∧
    ¬ HCS.maxLevel 3 = (64 - 1 - 3) / 3 := by
  decide

/-- Claim C10 as amended: for every dimension `D` in `[1, 8]` the computed
`max_level` equals `floor((W - 2 - D) / D)` with `W = 64`; this agrees with
the spec's `floor((W - 1 - D) / D)` exactly for `D` in `{2, 4, 5, 6, 8}`
(it is one smaller at `D` in `{1, 3, 7}`). -/
theorem c10_max_level_matches_code_formula :
    ∀ D : Nat, 1 ≤ D → D ≤ 8 →
      HCS.maxLevel D = (64 - 2 - D) / D ∧
      (HCS.maxLevel D = (64 - 1 - D) / D ↔ D = 2 ∨ D = 4 ∨ D = 5 ∨ D = 6 ∨ D = 8) := by
  intro D h1 h8
  interval_cases D <;> exact ⟨by decide, by decide⟩

/-- Witness for C10: the amended formula evaluated at `D = 3`, and the
agreement case of the equivalence at `D = 2`. -/
theorem c10_max_level_matches_code_formula_witness :
    HCS.maxLevel 3 = (64 - 2 - 3) / 3 ∧ HCS.maxLevel 2 = (64 - 1 - 2) / 2 :=
  ⟨(c10_max_level_matches_code_formula 3 (by decide) (by decide)).1,
   (c10_max_level_matches_code_formula 2 (by decide) (by decide)).2.mpr (Or.inl rfl)⟩
